import Mathlib

/-!
Verification development for `src/graphsage/pytorch_models.py`.

The file shallowly embeds the two classes of the source, `MeanAggregator`
and `GSSupervised`, over rational-valued matrices (`Mat := List (List ℚ)`,
a list of rows).  External numeric collaborators that the source merely
invokes — the neighbor samplers, the activation functions, `F.normalize`
(which needs real square roots) and the loss primitive — are passed in as
explicit function parameters, exactly as the source treats them as injected
or library black boxes.  Fallible tensor operations (the `view` reshape and
the terminal `assert`) are modelled with `Option` / `Except`.
-/

namespace GraphSage

/-- A feature vector: one row of a tensor. -/
abbrev Vec := List ℚ

/-- A 2-d tensor as a list of rows. -/
abbrev Mat := List Vec

/-- Opaque external adjacency structure: node id to neighbor ids.
Consumed only by the injected sampler functions, never by the core. -/
def Adj := ℕ → List ℕ

/-- Dot product; used to model `nn.Linear` application. -/
def dot (a b : Vec) : ℚ := (List.zipWith (fun u v => u * v) a b).sum

/-- `nn.Linear(in, out, bias=False)` applied to a batch: the weight `w` is a
matrix of `out` rows, each of width `in`; row `i` of the result is
`fun j => dot (w j) (x i)`. -/
def linear (w : Mat) (x : Mat) : Mat :=
  x.map (fun xi => w.map (fun wj => dot wj xi))

/-- `nn.Linear(in, out, bias=True)` applied to a batch (the classifier `fc`). -/
def linearB (w : Mat) (b : Vec) (x : Mat) : Mat :=
  x.map (fun xi => List.zipWith (fun wj bj => dot wj xi + bj) w b)

/-- Elementwise sum of two rows. -/
def vadd (a b : Vec) : Vec := List.zipWith (fun u v => u + v) a b

/-- Elementwise sum of a group of rows (`sum` part of `mean(dim=1)`). -/
def vsum : Mat → Vec
  | [] => []
  | [r] => r
  | r :: s :: t => vadd r (vsum (s :: t))

/-- Elementwise mean of a group of rows: models `Tensor.mean(dim=1)` on one
group of the `view(N, -1, D)` reshape. -/
def meanRows (m : Mat) : Vec := (vsum m).map (fun q => q / (m.length : ℚ))

/-- Split a row list into `n` consecutive groups of `g` rows each: the row
grouping performed by `neibs.view(x.size(0), -1, neibs.size(1))`. -/
def chunks : ℕ → ℕ → Mat → List Mat
  | 0, _, _ => []
  | n + 1, g, l => l.take g :: chunks n g (l.drop g)

/-- The combine policy merging the two projected batches.  The source default
is `lambda x: torch.cat(x, dim=1)`; the spec names summation as the
alternative policy. -/
inductive CombineFn
  | cat
  | sum

/-- Apply a combine policy to the two projected batches. -/
def CombineFn.apply : CombineFn → Mat → Mat → Mat
  | .cat, a, b => List.zipWith (fun u v => u ++ v) a b
  | .sum, a, b => List.zipWith vadd a b

/-- `if self.activation: out = self.activation(out)` — the optional
elementwise activation, `none` meaning pass-through. -/
def applyAct : Option (ℚ → ℚ) → Mat → Mat
  | none, m => m
  | some f, m => m.map (fun r => r.map f)

/-- The `MeanAggregator` module: two bias-free linear projections (`fc_x`,
`fc_neib`, stored as weight matrices of shape `output_dim_ × input_dim`),
the nominal output width `output_dim_`, the optional activation, and the
combine policy. `input_dim` records the constructor argument (the width of
the weight rows). -/
structure MeanAggregator where
  input_dim : ℕ
  output_dim_ : ℕ
  wx : Mat
  wneib : Mat
  activation : Option (ℚ → ℚ)
  combine_fn : CombineFn

/-- The `output_dim` property of the source: run the combine policy on two
dummy `1 × output_dim_` zero tensors and read off `.size(1)`. -/
def MeanAggregator.output_dim (a : MeanAggregator) : ℕ :=
  let tmp : Mat := [List.replicate a.output_dim_ 0]
  ((a.combine_fn.apply tmp tmp).headD []).length

/-- `MeanAggregator.forward(x, neibs)`:
`x_emb = fc_x(x)`; `agg_neib = neibs.view(x.size(0), -1, neibs.size(1))`
(which succeeds exactly when `x.size(0)` is positive and divides the row
count of `neibs`, and otherwise raises — modelled by `none`); then
`agg_neib = agg_neib.mean(dim=1)`, `neib_emb = fc_neib(agg_neib)`,
`out = combine_fn([x_emb, neib_emb])`, optional activation. -/
def MeanAggregator.forward (a : MeanAggregator) (x neibs : Mat) : Option Mat :=
  let x_emb := linear a.wx x
  if 0 < x.length ∧ x.length ∣ neibs.length then
    let agg_neib := (chunks x.length (neibs.length / x.length) neibs).map meanRows
    let neib_emb := linear a.wneib agg_neib
    let out := a.combine_fn.apply x_emb neib_emb
    some (applyAct a.activation out)
  else
    none

/-- One layer spec of the `layer_specs` constructor argument:
`{sample_fn, n_samples, output_dim, activation}`. -/
structure LayerSpec where
  sample_fn : List ℕ → Adj → ℕ → List ℕ
  n_samples : ℕ
  output_dim : ℕ
  activation : Option (ℚ → ℚ)

/-- A default `LayerSpec`, used only as the default argument of `List.getD`. -/
def layerSpecDefault : LayerSpec :=
  { sample_fn := fun _ _ _ => [], n_samples := 0, output_dim := 0, activation := none }

/-- A default `MeanAggregator`, used only as the default argument of
`List.getD`. -/
def aggDefault : MeanAggregator :=
  { input_dim := 0, output_dim_ := 0, wx := [], wneib := [],
    activation := none, combine_fn := .cat }

/-- Build one aggregator of the constructor loop:
`MeanAggregator(input_dim=input_dim, output_dim=spec['output_dim'],
activation=spec['activation'])` with the default (concatenation) combine
policy.  `winit i din dout` supplies the randomly initialised `nn.Linear`
weight of call number `i` (weight initialisation is torch's, external to the
source); call `2*i` is `fc_x` and `2*i+1` is `fc_neib` of layer `i`. -/
def mkAgg (winit : ℕ → ℕ → ℕ → Mat) (i input_dim : ℕ) (spec : LayerSpec) :
    MeanAggregator :=
  { input_dim := input_dim
    output_dim_ := spec.output_dim
    wx := winit (2 * i) input_dim spec.output_dim
    wneib := winit (2 * i + 1) input_dim spec.output_dim
    activation := spec.activation
    combine_fn := .cat }

/-- The aggregator-building loop of `GSSupervised.__init__`: after each
layer, `input_dim = agg.output_dim` (the *computed* width, "May not be the
same as spec['output_dim']"). -/
def buildAggs (winit : ℕ → ℕ → ℕ → Mat) : ℕ → ℕ → List LayerSpec → List MeanAggregator
  | _, _, [] => []
  | i, input_dim, spec :: rest =>
    let agg := mkAgg winit i input_dim spec
    agg :: buildAggs winit (i + 1) agg.output_dim rest

/-- The value of the `input_dim` variable after the constructor loop: the
width wired into `self.fc = nn.Linear(input_dim, num_classes, bias=True)`. -/
def finalDim (winit : ℕ → ℕ → ℕ → Mat) : ℕ → ℕ → List LayerSpec → ℕ
  | _, input_dim, [] => input_dim
  | i, input_dim, spec :: rest =>
    let agg := mkAgg winit i input_dim spec
    finalDim winit (i + 1) agg.output_dim rest

/-- The `GSSupervised` model: per-layer sampler closures
(`partial(s['sample_fn'], n_samples=s['n_samples'])`), the aggregator stack,
and the final classifier `fc` (weight, bias, and its recorded input width).
The optimizer is an external collaborator and owns no forward-pass state. -/
structure GSSupervised where
  sampler_fns : List (List ℕ → Adj → List ℕ)
  agg_layers : List MeanAggregator
  fc_input_dim : ℕ
  fc_w : Mat
  fc_b : Vec

/-- `GSSupervised.__init__(input_dim, num_classes, layer_specs, ...)`.
`winit` and `binit` supply torch's external random weight/bias
initialisation for the `nn.Linear` calls (weight call number
`2 * specs.length` is the classifier's). -/
def GSSupervised.init (winit : ℕ → ℕ → ℕ → Mat) (binit : ℕ → Vec)
    (input_dim num_classes : ℕ) (specs : List LayerSpec) : GSSupervised :=
  { sampler_fns := specs.map (fun s => fun ids adj => s.sample_fn ids adj s.n_samples)
    agg_layers := buildAggs winit 0 input_dim specs
    fc_input_dim := finalDim winit 0 input_dim specs
    fc_w := winit (2 * specs.length) (finalDim winit 0 input_dim specs) num_classes
    fc_b := binit num_classes }

/-- `features[ids]`: gather the feature rows of a batch of ids. -/
def featRows (features : ℕ → Vec) (ids : List ℕ) : Mat := ids.map features

/-- The loop body of `GSSupervised._sample`: start from `features[ids]`,
then for each sampler closure set `ids = sampler_fn(ids=ids, adj=adj)`
(already flat, per the sampler contract) and append `features[ids]`. -/
def sampleFeats (features : ℕ → Vec) (adj : Adj) :
    List (List ℕ → Adj → List ℕ) → List ℕ → List Mat
  | [], ids => [featRows features ids]
  | f :: fs, ids => featRows features ids :: sampleFeats features adj fs (f ids adj)

/-- `GSSupervised._sample(ids, features, adj)`. -/
def GSSupervised.sample (m : GSSupervised) (ids : List ℕ) (features : ℕ → Vec)
    (adj : Adj) : List Mat :=
  sampleFeats features adj m.sampler_fns ids

/-- The two failure modes of the forward pass: a failing `view` reshape
inside an aggregator call, and the terminal `assert len(all_feats) == 1`. -/
inductive FwdErr
  | shapeMismatch
  | assertFail
deriving DecidableEq

/-- One round of the reduction loop:
`[agg_layer(all_feats[k], all_feats[k + 1]) for k in range(len(all_feats) - 1)]`,
with the first failing aggregator call aborting the whole round. -/
def reduceRound (a : MeanAggregator) : List Mat → Option (List Mat)
  | [] => some []
  | [_] => some []
  | x :: y :: rest =>
    match a.forward x y, reduceRound a (y :: rest) with
    | some h, some t => some (h :: t)
    | _, _ => none

/-- The full reduction loop `for agg_layer in self.agg_layers.children()`,
taking the aggregators in stack order. -/
def reduceAll : List MeanAggregator → List Mat → Option (List Mat)
  | [], lv => some lv
  | a :: rest, lv =>
    match reduceRound a lv with
    | some lv2 => reduceAll rest lv2
    | none => none

/-- `GSSupervised.forward(ids, features, adj)`.  `normalize` is the external
`F.normalize(·, dim=1)` primitive (row-wise L2 normalisation; its square
roots live outside ℚ, so it is passed in like the other torch collaborators). -/
def GSSupervised.forward (m : GSSupervised) (normalize : Mat → Mat)
    (ids : List ℕ) (features : ℕ → Vec) (adj : Adj) : Except FwdErr Mat :=
  match reduceAll m.agg_layers (m.sample ids features adj) with
  | none => Except.error FwdErr.shapeMismatch
  | some [out] => Except.ok (linearB m.fc_w m.fc_b (normalize out))
  | some _ => Except.error FwdErr.assertFail

/-- The events of one training step, in the order `train_step` performs
them; `clipGradNorm` records the clipping bound. -/
inductive TrainEvent
  | zeroGrad
  | forwardPass
  | multilabelSoftMarginLoss
  | backwardPass
  | clipGradNorm (bound : ℚ)
  | optimizerStep
deriving DecidableEq

/-- A gradient-tracking scalar (`torch.autograd.Variable` holding one
number): `data` is the raw value, `requiresGrad` whether it tracks
gradients.  The loss produced inside `train_step` is such a value; the
value *returned* is `loss.data[0]`, the plain number. -/
structure TrackedScalar where
  data : ℚ
  requiresGrad : Bool

/-- `GSSupervised.train_step(ids, features, adj, labels)`: zero the
gradients, run one forward pass, apply `F.multilabel_soft_margin_loss`
(`lossFn`, the external multi-label binary-cross-entropy primitive) to the
logits and labels, backpropagate, clip the global gradient norm to 5, take
one optimizer step, and return the raw predictions together with
`loss.data[0]`.  The calls into the external autodiff/optimizer
collaborators are recorded as an event trace, in program order. -/
def GSSupervised.train_step (m : GSSupervised) (normalize : Mat → Mat)
    (lossFn : Mat → Mat → ℚ) (ids : List ℕ) (features : ℕ → Vec) (adj : Adj)
    (labels : Mat) : Except FwdErr (List TrainEvent × Mat × ℚ) :=
  let t0 : List TrainEvent := [TrainEvent.zeroGrad]
  match m.forward normalize ids features adj with
  | Except.error e => Except.error e
  | Except.ok preds =>
    let t1 := t0 ++ [TrainEvent.forwardPass]
    let loss : TrackedScalar := { data := lossFn preds labels, requiresGrad := true }
    let t2 := t1 ++ [TrainEvent.multilabelSoftMarginLoss]
    let t3 := t2 ++ [TrainEvent.backwardPass]
    let t4 := t3 ++ [TrainEvent.clipGradNorm 5]
    let t5 := t4 ++ [TrainEvent.optimizerStep]
    Except.ok (t5, preds, loss.data)

/-! ### Helper lemmas -/

lemma linear_length (w x : Mat) : (linear w x).length = x.length := by
  simp [linear]

lemma applyAct_length (act : Option (ℚ → ℚ)) (m : Mat) :
    (applyAct act m).length = m.length := by
  cases act <;> simp [applyAct]

lemma combine_apply_length (cf : CombineFn) (a b : Mat) :
    (cf.apply a b).length = min a.length b.length := by
  cases cf <;> simp [CombineFn.apply]

lemma chunks_length (g : ℕ) : ∀ (n : ℕ) (l : Mat), (chunks n g l).length = n
  | 0, _ => rfl
  | n + 1, l => by simp [chunks, chunks_length g n]

lemma forward_eq_some (a : MeanAggregator) (x neibs : Mat)
    (h1 : 0 < x.length) (h2 : x.length ∣ neibs.length) :
    a.forward x neibs =
      some (applyAct a.activation
        (a.combine_fn.apply (linear a.wx x)
          (linear a.wneib
            ((chunks x.length (neibs.length / x.length) neibs).map meanRows)))) := by
  simp [MeanAggregator.forward, if_pos (And.intro h1 h2)]

lemma forward_eq_none (a : MeanAggregator) (x neibs : Mat)
    (h : ¬(0 < x.length ∧ x.length ∣ neibs.length)) :
    a.forward x neibs = none := by
  simp only [MeanAggregator.forward, if_neg h]

lemma forward_length (a : MeanAggregator) (x neibs out : Mat)
    (h : a.forward x neibs = some out) : out.length = x.length := by
  by_cases hc : 0 < x.length ∧ x.length ∣ neibs.length
  · rw [forward_eq_some a x neibs hc.1 hc.2] at h
    have := Option.some.inj h
    rw [← this, applyAct_length, combine_apply_length, linear_length, linear_length,
      List.length_map, chunks_length]
    simp
  · rw [forward_eq_none a x neibs hc] at h
    exact absurd h (by simp)

lemma reduceRound_length (a : MeanAggregator) :
    ∀ (lv lv' : List Mat), reduceRound a lv = some lv' → lv'.length = lv.length - 1
  | [], lv', h => by
    simp only [reduceRound, Option.some.injEq] at h
    simp [← h]
  | [x], lv', h => by
    simp only [reduceRound, Option.some.injEq] at h
    simp [← h]
  | x :: y :: rest, lv', h => by
    simp only [reduceRound] at h
    cases hf : a.forward x y with
    | none => rw [hf] at h; exact absurd h (by simp)
    | some hd =>
      rw [hf] at h
      cases hr : reduceRound a (y :: rest) with
      | none => rw [hr] at h; exact absurd h (by simp)
      | some t =>
        rw [hr] at h
        have ht := reduceRound_length a (y :: rest) t hr
        have := Option.some.inj h
        rw [← this]
        simp only [List.length_cons] at ht ⊢
        omega

lemma reduceRound_pairs (a : MeanAggregator) :
    ∀ (lv lv' : List Mat), reduceRound a lv = some lv' →
      ∀ k, k + 1 < lv.length →
        a.forward (lv.getD k []) (lv.getD (k + 1) []) = some (lv'.getD k [])
  | [], lv', h => by intro k hk; simp at hk
  | [x], lv', h => by intro k hk; simp at hk
  | x :: y :: rest, lv', h => by
    simp only [reduceRound] at h
    cases hf : a.forward x y with
    | none => rw [hf] at h; exact absurd h (by simp)
    | some hd =>
      rw [hf] at h
      cases hr : reduceRound a (y :: rest) with
      | none => rw [hr] at h; exact absurd h (by simp)
      | some t =>
        rw [hr] at h
        have := Option.some.inj h
        rw [← this]
        intro k hk
        cases k with
        | zero => simpa using hf
        | succ k =>
          have := reduceRound_pairs a (y :: rest) t hr k (by simpa using hk)
          simpa using this

lemma reduceAll_length_exact :
    ∀ (aggs : List MeanAggregator) (lv lv' : List Mat),
      lv.length = aggs.length + 1 → reduceAll aggs lv = some lv' → lv'.length = 1
  | [], lv, lv', hlen, h => by
    simp only [reduceAll, Option.some.injEq] at h
    rw [← h]; simpa using hlen
  | a :: rest, lv, lv', hlen, h => by
    simp only [reduceAll] at h
    cases hr : reduceRound a lv with
    | none => rw [hr] at h; exact absurd h (by simp)
    | some lv2 =>
      rw [hr] at h
      have h2 := reduceRound_length a lv lv2 hr
      exact reduceAll_length_exact rest lv2 lv' (by simp at hlen; omega) h

lemma sampleFeats_length (features : ℕ → Vec) (adj : Adj) :
    ∀ (fns : List (List ℕ → Adj → List ℕ)) (ids : List ℕ),
      (sampleFeats features adj fns ids).length = fns.length + 1
  | [], ids => rfl
  | f :: fs, ids => by
    simp [sampleFeats, sampleFeats_length features adj fs (f ids adj)]

lemma buildAggs_length (winit : ℕ → ℕ → ℕ → Mat) :
    ∀ (i d : ℕ) (specs : List LayerSpec),
      (buildAggs winit i d specs).length = specs.length
  | _, _, [] => rfl
  | i, d, spec :: rest => by
    simp [buildAggs, buildAggs_length winit (i + 1) _ rest]

lemma chunks_getD (g : ℕ) :
    ∀ (n : ℕ) (l : Mat) (i : ℕ), i < n →
      (chunks n g l).getD i [] = (l.drop (i * g)).take g
  | 0, _, i, hi => absurd hi (Nat.not_lt_zero i)
  | n + 1, l, 0, _ => by simp [chunks]
  | n + 1, l, i + 1, hi => by
    have := chunks_getD g n (l.drop g) i (by omega)
    simp only [chunks, List.getD_cons_succ, this, List.drop_drop]
    congr 2
    ring

lemma vsum_length :
    ∀ (rows : Mat) (D : ℕ), (∀ r ∈ rows, r.length = D) → rows ≠ [] →
      (vsum rows).length = D
  | [], _, _, hne => absurd rfl hne
  | [r], D, hw, _ => by simpa [vsum] using hw r (by simp)
  | r :: s :: t, D, hw, _ => by
    have h1 : r.length = D := hw r (by simp)
    have h2 := vsum_length (s :: t) D (fun q hq => hw q (List.mem_cons_of_mem r hq)) (by simp)
    simp [vsum, vadd, h1, h2]

lemma vsum_getD :
    ∀ (rows : Mat) (D : ℕ), (∀ r ∈ rows, r.length = D) → ∀ j, j < D →
      (vsum rows).getD j 0 = ((rows.map (fun r => r.getD j 0)).sum)
  | [], _, _, j, _ => by simp [vsum]
  | [r], D, hw, j, hj => by simp [vsum]
  | r :: s :: t, D, hw, j, hj => by
    have h1 : r.length = D := hw r (by simp)
    have hlen := vsum_length (s :: t) D (fun q hq => hw q (List.mem_cons_of_mem r hq)) (by simp)
    have ih := vsum_getD (s :: t) D (fun q hq => hw q (List.mem_cons_of_mem r hq)) j hj
    have hjr : j < r.length := by omega
    have hjs : j < (vsum (s :: t)).length := by omega
    have : (vadd r (vsum (s :: t))).getD j 0
        = r.getD j 0 + (vsum (s :: t)).getD j 0 := by
      simp only [vadd]
      rw [List.getD_eq_getElem _ _ (by simp; omega), List.getElem_zipWith,
        List.getD_eq_getElem _ _ hjr, List.getD_eq_getElem _ _ hjs]
    simp only [vsum, this, ih, List.map_cons, List.sum_cons]

lemma meanRows_getD (rows : Mat) (D : ℕ) (hw : ∀ r ∈ rows, r.length = D)
    (hne : rows ≠ []) (j : ℕ) (hj : j < D) :
    (meanRows rows).getD j 0
      = ((rows.map (fun r => r.getD j 0)).sum) / (rows.length : ℚ) := by
  have hlen := vsum_length rows D hw hne
  have hjv : j < (vsum rows).length := by omega
  have : (meanRows rows).getD j 0 = (vsum rows).getD j 0 / (rows.length : ℚ) := by
    rw [meanRows, List.getD_eq_getElem _ _ (by simpa using hjv), List.getElem_map,
      List.getD_eq_getElem _ _ hjv]
  rw [this, vsum_getD rows D hw j hj]

/-- The size profile of a Feature Level List that makes every aggregator
call of one reduction round satisfy the `view` precondition: every level
but the last is nonempty and its row count divides the next level's. -/
def SizeChain (lv : List Mat) : Prop :=
  ∀ k, k + 1 < lv.length →
    0 < (lv.getD k []).length ∧ (lv.getD k []).length ∣ (lv.getD (k + 1) []).length

lemma reduceRound_chain (a : MeanAggregator) :
    ∀ (lv : List Mat), SizeChain lv →
      ∃ lv', reduceRound a lv = some lv' ∧
        ∀ k, k < lv'.length → (lv'.getD k []).length = (lv.getD k []).length
  | [], _ => ⟨[], rfl, by simp⟩
  | [x], _ => ⟨[], rfl, by simp⟩
  | x :: y :: rest, hchain => by
    have h0 := hchain 0 (by simp)
    simp only [List.getD_cons_zero, List.getD_cons_succ] at h0
    have hf := forward_eq_some a x y h0.1 h0.2
    set out := applyAct a.activation
      (a.combine_fn.apply (linear a.wx x)
        (linear a.wneib ((chunks x.length (y.length / x.length) y).map meanRows))) with hout
    have hlen : out.length = x.length := forward_length a x y out hf
    have hchain2 : SizeChain (y :: rest) := by
      intro k hk
      have := hchain (k + 1) (by simpa using Nat.succ_lt_succ hk)
      simpa using this
    obtain ⟨t, ht, hts⟩ := reduceRound_chain a (y :: rest) hchain2
    refine ⟨out :: t, ?_, ?_⟩
    · simp only [reduceRound, hf, ht]
    · intro k hk
      cases k with
      | zero => simpa using hlen
      | succ k =>
        simp only [List.getD_cons_succ]
        exact hts k (by simpa using hk)

lemma reduceAll_chain :
    ∀ (aggs : List MeanAggregator) (lv : List Mat), SizeChain lv →
      ∃ lv', reduceAll aggs lv = some lv' ∧ lv'.length = lv.length - aggs.length ∧
        ∀ k, k < lv'.length → (lv'.getD k []).length = (lv.getD k []).length
  | [], lv, _ => ⟨lv, rfl, by simp, by intro k _; rfl⟩
  | a :: rest, lv, hchain => by
    obtain ⟨lv2, h2, hs2⟩ := reduceRound_chain a lv hchain
    have hlen2 := reduceRound_length a lv lv2 h2
    have hchain2 : SizeChain lv2 := by
      intro k hk
      rw [hs2 k (by omega), hs2 (k + 1) hk]
      exact hchain k (by omega)
    obtain ⟨lv', h', hlen', hs'⟩ := reduceAll_chain rest lv2 hchain2
    refine ⟨lv', ?_, ?_, ?_⟩
    · simp only [reduceAll, h2, h']
    · simp only [hlen', hlen2, List.length_cons]; omega
    · intro k hk
      rw [hs' k hk, hs2 k (by omega)]

/-- `ids.length · n_1 · … · n_k`: the row count of level `k` of the Feature
Level List when every sampler honours its output-length contract. -/
def prodNs (specs : List LayerSpec) (k : ℕ) : ℕ :=
  ((specs.take k).map (fun s => s.n_samples)).prod

lemma prodNs_zero (specs : List LayerSpec) : prodNs specs 0 = 1 := rfl

lemma prodNs_cons (s : LayerSpec) (rest : List LayerSpec) (k : ℕ) :
    prodNs (s :: rest) (k + 1) = s.n_samples * prodNs rest k := by
  simp [prodNs]

lemma prodNs_pos (specs : List LayerSpec) (hpos : ∀ s ∈ specs, 0 < s.n_samples)
    (k : ℕ) : 0 < prodNs specs k := by
  apply List.prod_pos
  intro x hx
  simp only [prodNs, List.mem_map] at hx
  obtain ⟨s, hs, rfl⟩ := hx
  exact hpos s (List.mem_of_mem_take hs)

lemma prodNs_succ (specs : List LayerSpec) (k : ℕ) (hk : k < specs.length) :
    prodNs specs (k + 1) = prodNs specs k * (specs.getD k layerSpecDefault).n_samples := by
  induction specs generalizing k with
  | nil => simp at hk
  | cons s rest ih =>
    cases k with
    | zero => simp [prodNs_cons, prodNs_zero, prodNs]
    | succ k =>
      rw [prodNs_cons, ih k (by simpa using hk), prodNs_cons, List.getD_cons_succ]
      ring

lemma sample_sizes (features : ℕ → Vec) (adj : Adj) :
    ∀ (specs : List LayerSpec) (ids : List ℕ),
      (∀ s ∈ specs, ∀ ids2 : List ℕ,
          (s.sample_fn ids2 adj s.n_samples).length = ids2.length * s.n_samples) →
      ∀ k, k ≤ specs.length →
        ((sampleFeats features adj
            (specs.map (fun s => fun ids3 adj2 => s.sample_fn ids3 adj2 s.n_samples))
            ids).getD k []).length = ids.length * prodNs specs k
  | [], ids, _, 0, _ => by simp [sampleFeats, featRows, prodNs_zero]
  | [], ids, _, k + 1, hk => by simp at hk
  | s :: rest, ids, hcontract, 0, _ => by
    simp [sampleFeats, featRows, prodNs_zero]
  | s :: rest, ids, hcontract, k + 1, hk => by
    have hids1 : (s.sample_fn ids adj s.n_samples).length = ids.length * s.n_samples :=
      hcontract s (by simp) ids
    have ih := sample_sizes features adj rest (s.sample_fn ids adj s.n_samples)
      (fun q hq => hcontract q (List.mem_cons_of_mem s hq)) k (by simpa using hk)
    simp only [List.map_cons, sampleFeats, List.getD_cons_succ, ih, hids1, prodNs_cons]
    ring

lemma mkAgg_output_dim (winit : ℕ → ℕ → ℕ → Mat) (i d : ℕ) (spec : LayerSpec) :
    (mkAgg winit i d spec).output_dim = 2 * spec.output_dim := by
  simp [mkAgg, MeanAggregator.output_dim, CombineFn.apply]
  ring

lemma output_dim_of_policy (a : MeanAggregator) :
    a.output_dim = match a.combine_fn with
      | CombineFn.cat => 2 * a.output_dim_
      | CombineFn.sum => a.output_dim_ := by
  cases h : a.combine_fn <;>
    simp [MeanAggregator.output_dim, h, CombineFn.apply, vadd, two_mul]

lemma buildAggs_mem_cat (winit : ℕ → ℕ → ℕ → Mat) :
    ∀ (specs : List LayerSpec) (i d : ℕ) (a : MeanAggregator),
      a ∈ buildAggs winit i d specs → a.combine_fn = CombineFn.cat
  | [], _, _, a, ha => by simp [buildAggs] at ha
  | s :: rest, i, d, a, ha => by
    simp only [buildAggs, List.mem_cons] at ha
    cases ha with
    | inl h => rw [h]; rfl
    | inr h => exact buildAggs_mem_cat winit rest (i + 1) _ a h

lemma buildAggs_head_input (winit : ℕ → ℕ → ℕ → Mat) :
    ∀ (specs : List LayerSpec) (i d : ℕ), specs ≠ [] →
      ((buildAggs winit i d specs).getD 0 aggDefault).input_dim = d
  | [], _, _, hne => absurd rfl hne
  | _ :: _, _, _, _ => rfl

lemma buildAggs_chain_dims (winit : ℕ → ℕ → ℕ → Mat) :
    ∀ (specs : List LayerSpec) (i d : ℕ) (j : ℕ), j + 1 < specs.length →
      ((buildAggs winit i d specs).getD (j + 1) aggDefault).input_dim
        = ((buildAggs winit i d specs).getD j aggDefault).output_dim
  | [], _, _, j, hj => by simp at hj
  | [s], _, _, j, hj => by simp at hj
  | s :: r :: rest, i, d, 0, _ => by
    have := buildAggs_head_input winit (r :: rest) (i + 1)
      (mkAgg winit i d s).output_dim (by simp)
    simpa [buildAggs] using this
  | s :: r :: rest, i, d, j + 1, hj => by
    have := buildAggs_chain_dims winit (r :: rest) (i + 1)
      (mkAgg winit i d s).output_dim j (by simpa using hj)
    simpa [buildAggs] using this

lemma finalDim_eq_last (winit : ℕ → ℕ → ℕ → Mat) :
    ∀ (specs : List LayerSpec) (i d : ℕ), specs ≠ [] →
      finalDim winit i d specs
        = ((buildAggs winit i d specs).getLast?.getD aggDefault).output_dim
  | [], _, _, hne => absurd rfl hne
  | [s], i, d, _ => by
    simp [finalDim, buildAggs]
  | s :: r :: rest, i, d, _ => by
    have := finalDim_eq_last winit (r :: rest) (i + 1) (mkAgg winit i d s).output_dim
      (by simp)
    simp only [finalDim, buildAggs] at this ⊢
    rw [this, List.getLast?_cons_cons]

lemma chunks_singletons : ∀ (n : ℕ) (l : Mat), l.length = n →
    chunks n 1 l = l.map (fun r => [r])
  | 0, [], _ => rfl
  | 0, r :: t, h => by simp at h
  | n + 1, [], h => by simp at h
  | n + 1, r :: t, h => by
    simp only [chunks, List.take_cons, List.take_zero, List.drop_succ_cons, List.drop_zero,
      List.map_cons]
    exact congrArg _ (chunks_singletons n t (by simpa using h))

lemma meanRows_single (r : Vec) : meanRows [r] = r := by
  simp [meanRows, vsum, div_one]

/-! ### Concrete instances used by witnesses and counterexamples -/

/-- A concrete aggregator for concrete computations: identity weights, no
activation, concatenation policy. -/
def aggEx : MeanAggregator :=
  { input_dim := 1, output_dim_ := 1, wx := [[1]], wneib := [[1]],
    activation := none, combine_fn := .cat }

/-- Second concrete aggregator (2-wide input, distinct projections). -/
def aggEx2 : MeanAggregator :=
  { input_dim := 2, output_dim_ := 1, wx := [[1, 0]], wneib := [[0, 1]],
    activation := none, combine_fn := .cat }

/-- Concrete weight initialiser supplying the weights of `aggEx`/`aggEx2`
in construction order. -/
def winitEx : ℕ → ℕ → ℕ → Mat :=
  fun i _ _ => if i = 0 then [[1]] else if i = 1 then [[1]]
    else if i = 2 then [[1, 0]] else if i = 3 then [[0, 1]] else [[1, 1]]

/-- Concrete bias initialiser: all-zero bias. -/
def binitEx : ℕ → Vec := fun n => List.replicate n 0

/-- Concrete feature matrix: node `k` has the single feature `k`. -/
def featEx : ℕ → Vec := fun k => [(k : ℚ)]

/-- Concrete (empty) adjacency; the concrete samplers below ignore it. -/
def adjEx : Adj := fun _ => []

/-- A contract-honouring sampler spec: always samples node `v`, once per
requested sample. -/
def specEx (v : ℕ) : LayerSpec :=
  { sample_fn := fun ids _ m => List.replicate (ids.length * m) v
    n_samples := 1, output_dim := 1, activation := none }

/-! ### Claims -/

/-- Claim C1: for every layer-spec sequence of length `L` and every query id
batch, the Feature Level List built by the forward pass has exactly `L + 1`
levels immediately after the sampling phase, each reduction round shortens
it by exactly one level, exactly one level remains after all `L` rounds,
and therefore the terminal assertion (`len(all_feats) == 1`) never fails:
the forward pass can only return a result or a shape-mismatch error. -/
theorem C1_feature_level_invariant (winit : ℕ → ℕ → ℕ → Mat) (binit : ℕ → Vec)
    (input_dim num_classes : ℕ) (specs : List LayerSpec) (normalize : Mat → Mat)
    (ids : List ℕ) (features : ℕ → Vec) (adj : Adj) :
    ((GSSupervised.init winit binit input_dim num_classes specs).sample ids features adj).length
        = specs.length + 1
    ∧ (∀ (a : MeanAggregator) (lv lv' : List Mat), 0 < lv.length →
        reduceRound a lv = some lv' → lv'.length + 1 = lv.length)
    ∧ (∀ lv',
        reduceAll (GSSupervised.init winit binit input_dim num_classes specs).agg_layers
            ((GSSupervised.init winit binit input_dim num_classes specs).sample ids features adj)
          = some lv' → lv'.length = 1)
    ∧ (GSSupervised.init winit binit input_dim num_classes specs).forward
        normalize ids features adj ≠ Except.error FwdErr.assertFail := by
  have hsample :
      ((GSSupervised.init winit binit input_dim num_classes specs).sample
          ids features adj).length = specs.length + 1 := by
    simp [GSSupervised.sample, GSSupervised.init, sampleFeats_length]
  have hround : ∀ (a : MeanAggregator) (lv lv' : List Mat), 0 < lv.length →
      reduceRound a lv = some lv' → lv'.length + 1 = lv.length := by
    intro a lv lv' hpos h
    have := reduceRound_length a lv lv' h
    omega
  have hterm : ∀ lv',
      reduceAll (GSSupervised.init winit binit input_dim num_classes specs).agg_layers
          ((GSSupervised.init winit binit input_dim num_classes specs).sample ids features adj)
        = some lv' → lv'.length = 1 := by
    intro lv' h
    apply reduceAll_length_exact _ _ _ _ h
    rw [hsample]
    simp [GSSupervised.init, buildAggs_length]
  refine ⟨hsample, hround, hterm, ?_⟩
  unfold GSSupervised.forward
  cases hred : reduceAll (GSSupervised.init winit binit input_dim num_classes specs).agg_layers
      ((GSSupervised.init winit binit input_dim num_classes specs).sample ids features adj) with
  | none => simp
  | some lv' =>
    have hone := hterm lv' hred
    obtain ⟨out, rfl⟩ := List.length_eq_one.mp hone
    simp

/-- Witness for C1 at a concrete model: a one-layer model built from
`specEx 1`, queried at id batch `[0]`; the concrete hypotheses of the
round-shortening conjunct are discharged on a concrete two-level list. -/
theorem C1_feature_level_invariant_witness :
    ((GSSupervised.init winitEx binitEx 1 1 [specEx 1]).sample [0] featEx adjEx).length = 2
    ∧ ([[[(1 : ℚ), 2]]] : List Mat).length + 1 = ([[[(1 : ℚ)]], [[2]]] : List Mat).length
    ∧ (GSSupervised.init winitEx binitEx 1 1 [specEx 1]).forward id [0] featEx adjEx
        ≠ Except.error FwdErr.assertFail := by
  have T := C1_feature_level_invariant winitEx binitEx 1 1 [specEx 1] id [0] featEx adjEx
  refine ⟨T.1, ?_, T.2.2.2⟩
  exact T.2.1 aggEx [[[(1 : ℚ)]], [[2]]] [[[(1 : ℚ), 2]]] (by norm_num)
    (by norm_num [reduceRound, MeanAggregator.forward, linear, dot, chunks, meanRows,
      vsum, applyAct, CombineFn.apply, aggEx])

/-- Claim C2: the reduction loop takes the aggregators in stack order
(`agg_layers[0]` in the first round), and within one round the single
aggregator instance `a` is applied to every adjacent pair
`(level[k], level[k+1])` of the current Feature Level List, producing the
next list, which is exactly one element shorter. -/
theorem C2_stack_order_round (a : MeanAggregator) (rest : List MeanAggregator)
    (lv lv' : List Mat) (hlv : 0 < lv.length) (h : reduceRound a lv = some lv') :
    reduceAll (a :: rest) lv
        = (match reduceRound a lv with
           | some lv2 => reduceAll rest lv2
           | none => none)
    ∧ lv'.length + 1 = lv.length
    ∧ ∀ k, k + 1 < lv.length →
        a.forward (lv.getD k []) (lv.getD (k + 1) []) = some (lv'.getD k []) := by
  refine ⟨rfl, ?_, reduceRound_pairs a lv lv' h⟩
  have := reduceRound_length a lv lv' h
  omega

/-- Witness for C2 on a concrete three-level list and concrete aggregator. -/
theorem C2_stack_order_round_witness :
    reduceAll [aggEx] [[[(0 : ℚ)]], [[1]], [[2]]]
        = (match reduceRound aggEx [[[(0 : ℚ)]], [[1]], [[2]]] with
           | some lv2 => reduceAll ([] : List MeanAggregator) lv2
           | none => none)
    ∧ ([[[(0 : ℚ), 1]], [[1, 2]]] : List Mat).length + 1
        = ([[[(0 : ℚ)]], [[1]], [[2]]] : List Mat).length
    ∧ ∀ k, k + 1 < ([[[(0 : ℚ)]], [[1]], [[2]]] : List Mat).length →
        aggEx.forward (([[[(0 : ℚ)]], [[1]], [[2]]] : List Mat).getD k [])
            (([[[(0 : ℚ)]], [[1]], [[2]]] : List Mat).getD (k + 1) [])
          = some (([[[(0 : ℚ), 1]], [[1, 2]]] : List Mat).getD k []) := by
  exact C2_stack_order_round aggEx [] [[[(0 : ℚ)]], [[1]], [[2]]]
    [[[(0 : ℚ), 1]], [[1, 2]]] (by norm_num)
    (by norm_num [reduceRound, MeanAggregator.forward, linear, dot, chunks, meanRows,
      vsum, applyAct, CombineFn.apply, aggEx])

/-- Claim C5: a `MeanAggregator.forward` call fails (the `view` reshape
raises, modelled as `none`) whenever the `neibs` row count is not an exact
multiple of the `x` row count, and succeeds (returns `some` result, no
truncation or padding) whenever it is an exact multiple. -/
theorem C5_reshape_contract (a : MeanAggregator) (x neibs : Mat) :
    (¬ x.length ∣ neibs.length → a.forward x neibs = none)
    ∧ (0 < x.length → x.length ∣ neibs.length → ∃ out, a.forward x neibs = some out) := by
  constructor
  · intro hnot
    exact forward_eq_none a x neibs (fun hc => hnot hc.2)
  · intro hN hdvd
    exact ⟨_, forward_eq_some a x neibs hN hdvd⟩

/-- Witness for C5: with two self rows, three neighbor rows fail and four
neighbor rows succeed. -/
theorem C5_reshape_contract_witness :
    aggEx.forward [[(1 : ℚ)], [2]] [[1], [3], [5]] = none
    ∧ ∃ out, aggEx.forward [[(1 : ℚ)], [2]] [[1], [3], [5], [7]] = some out := by
  constructor
  · exact (C5_reshape_contract aggEx [[(1 : ℚ)], [2]] [[1], [3], [5]]).1
      (by decide)
  · exact (C5_reshape_contract aggEx [[(1 : ℚ)], [2]] [[1], [3], [5], [7]]).2
      (by norm_num) (by decide)

/-- Claim C9: when `n_samples = 1` (one neighbor row per self row), mean
pooling is the identity, so the aggregator output is exactly
`activation(combine(fc_x(x), fc_neib(neibs)))` with no averaging artifact. -/
theorem C9_single_sample_pooling (a : MeanAggregator) (x neibs : Mat)
    (hN : 0 < x.length) (hlen : neibs.length = x.length) :
    a.forward x neibs
      = some (applyAct a.activation
          (a.combine_fn.apply (linear a.wx x) (linear a.wneib neibs))) := by
  have hdvd : x.length ∣ neibs.length := hlen ▸ dvd_refl _
  rw [forward_eq_some a x neibs hN hdvd]
  have hg : neibs.length / x.length = 1 := by
    rw [hlen, Nat.div_self hN]
  rw [hg, chunks_singletons x.length neibs hlen]
  congr 1
  rw [List.map_map]
  have : (meanRows ∘ fun r => [r]) = id := by
    funext r
    simp [meanRows_single]
  rw [this, List.map_id]

/-- Witness for C9 on a concrete two-row batch with one neighbor each. -/
theorem C9_single_sample_pooling_witness :
    aggEx.forward [[(1 : ℚ)], [2]] [[3], [4]]
      = some (applyAct aggEx.activation
          (aggEx.combine_fn.apply (linear aggEx.wx [[(1 : ℚ)], [2]])
            (linear aggEx.wneib [[(3 : ℚ)], [4]]))) := by
  exact C9_single_sample_pooling aggEx [[(1 : ℚ)], [2]] [[3], [4]] (by norm_num) rfl

/-- Claim C3: `MeanAggregator.forward` on an `N × D` self batch and an
`(N·g) × D` neighbor batch returns
`activation(combine(fc_x(x), fc_neib(pooled)))`, where `pooled` is the
elementwise mean over each group of `g` consecutive neighbor rows, both
projections are bias-free linear maps, the default (concatenation) combine
policy concatenates the two projected batches row by row along the feature
axis, and a `none` activation passes the combined result through unchanged. -/
theorem C3_aggregator_formula (a : MeanAggregator) (x neibs : Mat) (g D : ℕ)
    (hN : 0 < x.length) (hg : 0 < g) (hlen : neibs.length = x.length * g)
    (hW : ∀ r ∈ neibs, r.length = D) :
    a.forward x neibs
        = some (applyAct a.activation
            (a.combine_fn.apply (linear a.wx x)
              (linear a.wneib ((chunks x.length g neibs).map meanRows))))
    ∧ (∀ i, i < x.length →
        (chunks x.length g neibs).getD i [] = (neibs.drop (i * g)).take g)
    ∧ (∀ i j, i < x.length → j < D →
        (((chunks x.length g neibs).map meanRows).getD i []).getD j 0
          = ((((neibs.drop (i * g)).take g).map (fun r => r.getD j 0)).sum) / (g : ℚ))
    ∧ (∀ A B : Mat, CombineFn.cat.apply A B = List.zipWith (fun u v => u ++ v) A B)
    ∧ (∀ M : Mat, applyAct none M = M) := by
  have hdvd : x.length ∣ neibs.length := hlen ▸ Dvd.intro g rfl
  have hdiv : neibs.length / x.length = g := by
    rw [hlen, Nat.mul_div_cancel_left g hN]
  have hchunk : ∀ i, i < x.length →
      (chunks x.length g neibs).getD i [] = (neibs.drop (i * g)).take g :=
    fun i hi => chunks_getD g x.length neibs i hi
  refine ⟨?_, hchunk, ?_, fun A B => rfl, fun M => rfl⟩
  · rw [forward_eq_some a x neibs hN hdvd, hdiv]
  · intro i j hi hj
    have hgetmap : (((chunks x.length g neibs).map meanRows).getD i [])
        = meanRows ((chunks x.length g neibs).getD i []) := by
      have : meanRows [] = ([] : Vec) := rfl
      rw [← this, List.getD_map]
    rw [hgetmap, hchunk i hi]
    have htk : ((neibs.drop (i * g)).take g).length = g := by
      have h1 : i * g + g ≤ x.length * g := by
        have h2 : (i + 1) * g ≤ x.length * g :=
          Nat.mul_le_mul_right g (Nat.succ_le_of_lt hi)
        calc i * g + g = (i + 1) * g := by ring
          _ ≤ x.length * g := h2
      rw [List.length_take, List.length_drop, hlen]
      omega
    have hwk : ∀ r ∈ (neibs.drop (i * g)).take g, r.length = D := by
      intro r hr
      exact hW r (List.mem_of_mem_drop (List.mem_of_mem_take hr))
    have hne : (neibs.drop (i * g)).take g ≠ [] := by
      intro hnil
      rw [hnil] at htk
      simp at htk
      omega
    rw [meanRows_getD _ D hwk hne j hj, htk]

/-- Witness for C3: a `2 × 1` self batch with two samples per id. -/
theorem C3_aggregator_formula_witness :
    aggEx.forward [[(1 : ℚ)], [2]] [[1], [3], [5], [7]]
      = some (applyAct aggEx.activation
          (aggEx.combine_fn.apply (linear aggEx.wx [[(1 : ℚ)], [2]])
            (linear aggEx.wneib
              ((chunks ([[(1 : ℚ)], [2]] : Mat).length 2
                  [[(1 : ℚ)], [3], [5], [7]]).map meanRows)))) := by
  exact (C3_aggregator_formula aggEx [[(1 : ℚ)], [2]] [[1], [3], [5], [7]] 2 1
    (by norm_num) (by norm_num) (by norm_num) (by decide)).1

/-- Claim C4: every aggregator's queryable effective output width equals the
width its combine policy produces on two `output_dim_`-wide rows —
`2 × output_dim_` for concatenation, `output_dim_` for summation — and at
model construction this computed width (all constructed aggregators use the
concatenation default) is what wires into the next layer's `input_dim` and
into the input width of the final classification projection. -/
theorem C4_effective_width_wiring (winit : ℕ → ℕ → ℕ → Mat) (binit : ℕ → Vec)
    (input_dim num_classes : ℕ) (specs : List LayerSpec) :
    (∀ a : MeanAggregator,
        a.output_dim = match a.combine_fn with
          | CombineFn.cat => 2 * a.output_dim_
          | CombineFn.sum => a.output_dim_)
    ∧ (∀ a ∈ (GSSupervised.init winit binit input_dim num_classes specs).agg_layers,
        a.output_dim = 2 * a.output_dim_)
    ∧ (∀ j, j + 1 < (GSSupervised.init winit binit input_dim num_classes specs).agg_layers.length →
        (((GSSupervised.init winit binit input_dim num_classes specs).agg_layers.getD
            (j + 1) aggDefault)).input_dim
          = (((GSSupervised.init winit binit input_dim num_classes specs).agg_layers.getD
              j aggDefault)).output_dim)
    ∧ (specs ≠ [] →
        (GSSupervised.init winit binit input_dim num_classes specs).fc_input_dim
          = (((GSSupervised.init winit binit input_dim num_classes specs).agg_layers.getLast?.getD
              aggDefault)).output_dim) := by
  refine ⟨output_dim_of_policy, ?_, ?_, ?_⟩
  · intro a ha
    have hcat := buildAggs_mem_cat winit specs 0 input_dim a ha
    rw [output_dim_of_policy a, hcat]
  · intro j hj
    exact buildAggs_chain_dims winit specs 0 input_dim j
      (by simpa [GSSupervised.init, buildAggs_length] using hj)
  · intro hne
    exact finalDim_eq_last winit specs 0 input_dim hne

/-- Witness for C4 on a concrete two-layer model. -/
theorem C4_effective_width_wiring_witness :
    ((GSSupervised.init winitEx binitEx 1 1 [specEx 1, specEx 2]).agg_layers.getD
        1 aggDefault).input_dim
      = ((GSSupervised.init winitEx binitEx 1 1 [specEx 1, specEx 2]).agg_layers.getD
          0 aggDefault).output_dim
    ∧ (GSSupervised.init winitEx binitEx 1 1 [specEx 1, specEx 2]).fc_input_dim
      = ((GSSupervised.init winitEx binitEx 1 1
          [specEx 1, specEx 2]).agg_layers.getLast?.getD aggDefault).output_dim := by
  have T := C4_effective_width_wiring winitEx binitEx 1 1 [specEx 1, specEx 2]
  exact ⟨T.2.2.1 0 (by simp [GSSupervised.init, buildAggs_length]),
    T.2.2.2 (by simp)⟩

/-- Claim C6: a model built from an empty layer-spec sequence performs no
sampling: `forward(ids, features, adj)` equals the classification
projection applied to the normalized `features[ids]`, and the result does
not depend on `adj`. -/
theorem C6_zero_layers (winit : ℕ → ℕ → ℕ → Mat) (binit : ℕ → Vec)
    (input_dim num_classes : ℕ) (normalize : Mat → Mat)
    (ids : List ℕ) (features : ℕ → Vec) (adj : Adj) :
    (GSSupervised.init winit binit input_dim num_classes []).forward
        normalize ids features adj
      = Except.ok (linearB
          (GSSupervised.init winit binit input_dim num_classes []).fc_w
          (GSSupervised.init winit binit input_dim num_classes []).fc_b
          (normalize (featRows features ids)))
    ∧ ∀ adj2 : Adj,
        (GSSupervised.init winit binit input_dim num_classes []).forward
            normalize ids features adj
          = (GSSupervised.init winit binit input_dim num_classes []).forward
              normalize ids features adj2 := by
  exact ⟨rfl, fun adj2 => rfl⟩

/-- Claim C7: `train_step` runs exactly the sequence zero-grad → forward →
multi-label soft-margin (binary-cross-entropy) loss on the logits →
backward → clip global gradient norm at 5 → optimizer step, and returns the
raw pre-loss predictions together with the `data` field of the
gradient-tracking loss value — a plain scalar. -/
theorem C7_train_step_sequence (m : GSSupervised) (normalize : Mat → Mat)
    (lossFn : Mat → Mat → ℚ) (ids : List ℕ) (features : ℕ → Vec) (adj : Adj)
    (labels : Mat) (preds : Mat)
    (h : m.forward normalize ids features adj = Except.ok preds) :
    m.train_step normalize lossFn ids features adj labels
      = Except.ok
          ([TrainEvent.zeroGrad, TrainEvent.forwardPass,
            TrainEvent.multilabelSoftMarginLoss, TrainEvent.backwardPass,
            TrainEvent.clipGradNorm 5, TrainEvent.optimizerStep],
           preds,
           (TrackedScalar.mk (lossFn preds labels) true).data) := by
  simp [GSSupervised.train_step, h]

/-- Witness for C7 on a concrete zero-layer model with a concrete loss
collaborator. -/
theorem C7_train_step_sequence_witness :
    (GSSupervised.init winitEx binitEx 1 1 []).train_step id (fun _ _ => (7 : ℚ))
        [0] featEx adjEx []
      = Except.ok
          ([TrainEvent.zeroGrad, TrainEvent.forwardPass,
            TrainEvent.multilabelSoftMarginLoss, TrainEvent.backwardPass,
            TrainEvent.clipGradNorm 5, TrainEvent.optimizerStep],
           ([[(0 : ℚ)]] : Mat), (7 : ℚ)) := by
  exact C7_train_step_sequence (GSSupervised.init winitEx binitEx 1 1 []) id
    (fun _ _ => (7 : ℚ)) [0] featEx adjEx [] [[(0 : ℚ)]]
    (by norm_num [GSSupervised.forward, GSSupervised.init, GSSupervised.sample,
      sampleFeats, reduceAll, buildAggs, featRows, featEx, linearB, dot,
      winitEx, binitEx])

/-- Modelled from the spec: the reading of "spec[0] = innermost/closest hop,
applied last in reduction" under which the aggregator built from
`layer_specs[0]` runs in the *final* reduction round, i.e. the aggregators
are consumed in reverse stack order. -/
def reduceAllSpecOrder (aggs : List MeanAggregator) (lv : List Mat) : Option (List Mat) :=
  reduceAll aggs.reverse lv

/-- Counterexample to claim C8: on a concrete two-layer model the forward
pass's reduction (which consumes `agg_layers` front to back) produces a
different result from the reduction that applies `layer_specs[0]`'s
aggregator last, so the aggregator built from `layer_specs[0]` is not
applied last. -/
theorem C8_counterexample :
    reduceAll (GSSupervised.init winitEx binitEx 1 1 [specEx 1, specEx 2]).agg_layers
        ((GSSupervised.init winitEx binitEx 1 1 [specEx 1, specEx 2]).sample
          [0] featEx adjEx)
      = some [[[(0 : ℚ), 2]]]
    ∧ reduceAllSpecOrder
        (GSSupervised.init winitEx binitEx 1 1 [specEx 1, specEx 2]).agg_layers
        ((GSSupervised.init winitEx binitEx 1 1 [specEx 1, specEx 2]).sample
          [0] featEx adjEx)
      = some [[[(0 : ℚ), 1]]]
    ∧ (some [[[(0 : ℚ), 2]]] : Option (List Mat)) ≠ some [[[(0 : ℚ), 1]]] := by
  refine ⟨?_, ?_, by norm_num⟩ <;>
    norm_num [GSSupervised.init, GSSupervised.sample, sampleFeats, featRows, featEx,
      buildAggs, mkAgg, specEx, winitEx, reduceAllSpecOrder, reduceAll, reduceRound,
      MeanAggregator.forward, linear, dot, chunks, meanRows, vsum, vadd, applyAct,
      CombineFn.apply]

/-- Claim C8 as amended: the aggregator built from `layer_specs[0]` is
applied in the *first* reduction round, and it is the aggregator of the
*last* layer spec that is applied last — reducing with stack
`rest ++ [a]` is reducing with `rest` and then one final round with `a`. -/
theorem C8_amended_stack_order (a : MeanAggregator) (rest : List MeanAggregator)
    (lv : List Mat) :
    reduceAll (a :: rest) lv
        = (match reduceRound a lv with
           | some lv2 => reduceAll rest lv2
           | none => none)
    ∧ reduceAll (rest ++ [a]) lv
        = (match reduceAll rest lv with
           | some lv2 => reduceRound a lv2
           | none => none) := by
  refine ⟨rfl, ?_⟩
  induction rest generalizing lv with
  | nil =>
    simp only [List.nil_append, reduceAll]
    cases reduceRound a lv with
    | none => rfl
    | some lv2 => rfl
  | cons b rs ih =>
    simp only [List.cons_append, reduceAll]
    cases reduceRound b lv with
    | none => rfl
    | some lv2 => exact ih lv2

/-- Counterexample to claim C10 as stated: over an *empty* query id batch a
contract-honouring sampler still leads to a shape-mismatch failure (the
`view(0, -1, D)` reshape of an empty self batch raises), so "no
ShapeMismatch can occur during a full forward pass" does not hold for every
id batch. -/
theorem C10_counterexample :
    (∀ ids2 : List ℕ,
        ((specEx 1).sample_fn ids2 adjEx (specEx 1).n_samples).length
          = ids2.length * (specEx 1).n_samples)
    ∧ (GSSupervised.init winitEx binitEx 1 1 [specEx 1]).forward id [] featEx adjEx
        = Except.error FwdErr.shapeMismatch := by
  constructor
  · intro ids2
    simp [specEx]
  · norm_num [GSSupervised.forward, GSSupervised.init, GSSupervised.sample, sampleFeats,
      featRows, featEx, buildAggs, mkAgg, specEx, winitEx, reduceAll, reduceRound,
      MeanAggregator.forward]

/-- Claim C10 as amended: for a model with sample counts `n_1 .. n_L` and a
*nonempty* query batch, if every injected sampler honours the output-length
contract (and the sample counts are positive, as the spec's data model
requires), then level `k` of the Feature Level List has exactly
`|ids| · n_1 · … · n_k` rows after sampling, adjacent levels of every
intermediate reduction list keep these sizes (so each adjacent pair has
row-count ratio exactly `n_{k+1}` and every aggregator call's divisibility
precondition holds), and the full forward pass succeeds with no
ShapeMismatch. -/
theorem C10_amended_no_shape_mismatch (winit : ℕ → ℕ → ℕ → Mat) (binit : ℕ → Vec)
    (input_dim num_classes : ℕ) (specs : List LayerSpec) (normalize : Mat → Mat)
    (ids : List ℕ) (features : ℕ → Vec) (adj : Adj)
    (hids : 0 < ids.length)
    (hpos : ∀ s ∈ specs, 0 < s.n_samples)
    (hcontract : ∀ s ∈ specs, ∀ ids2 : List ℕ,
        (s.sample_fn ids2 adj s.n_samples).length = ids2.length * s.n_samples) :
    (∀ k, k ≤ specs.length →
        (((GSSupervised.init winit binit input_dim num_classes specs).sample
            ids features adj).getD k []).length = ids.length * prodNs specs k)
    ∧ (∀ k, k < specs.length →
        (((GSSupervised.init winit binit input_dim num_classes specs).sample
            ids features adj).getD (k + 1) []).length
          = (((GSSupervised.init winit binit input_dim num_classes specs).sample
              ids features adj).getD k []).length
            * (specs.getD k layerSpecDefault).n_samples)
    ∧ (∀ r, r ≤ specs.length → ∃ lvr,
        reduceAll
            ((GSSupervised.init winit binit input_dim num_classes specs).agg_layers.take r)
            ((GSSupervised.init winit binit input_dim num_classes specs).sample
              ids features adj)
          = some lvr
        ∧ lvr.length = specs.length + 1 - r
        ∧ ∀ k, k < lvr.length → (lvr.getD k []).length = ids.length * prodNs specs k)
    ∧ (∃ out,
        (GSSupervised.init winit binit input_dim num_classes specs).forward
            normalize ids features adj = Except.ok out) := by
  have hsizes : ∀ k, k ≤ specs.length →
      (((GSSupervised.init winit binit input_dim num_classes specs).sample
          ids features adj).getD k []).length = ids.length * prodNs specs k :=
    fun k hk => sample_sizes features adj specs ids hcontract k hk
  have hlv : ((GSSupervised.init winit binit input_dim num_classes specs).sample
      ids features adj).length = specs.length + 1 := by
    simp [GSSupervised.sample, GSSupervised.init, sampleFeats_length]
  have hratio : ∀ k, k < specs.length →
      (((GSSupervised.init winit binit input_dim num_classes specs).sample
          ids features adj).getD (k + 1) []).length
        = (((GSSupervised.init winit binit input_dim num_classes specs).sample
            ids features adj).getD k []).length
          * (specs.getD k layerSpecDefault).n_samples := by
    intro k hk
    rw [hsizes (k + 1) hk, hsizes k (le_of_lt hk), prodNs_succ specs k hk, Nat.mul_assoc]
  have hchain : SizeChain
      ((GSSupervised.init winit binit input_dim num_classes specs).sample
        ids features adj) := by
    intro k hk
    rw [hlv] at hk
    have hk1 : k ≤ specs.length := by omega
    have hk2 : k < specs.length := by omega
    rw [hsizes k hk1, hsizes (k + 1) hk2]
    constructor
    · exact Nat.mul_pos hids (prodNs_pos specs hpos k)
    · rw [prodNs_succ specs k hk2, ← Nat.mul_assoc]
      exact Dvd.intro _ rfl
  have hagglen : (GSSupervised.init winit binit input_dim num_classes
      specs).agg_layers.length = specs.length := by
    simp [GSSupervised.init, buildAggs_length]
  have hrounds : ∀ r, r ≤ specs.length → ∃ lvr,
      reduceAll
          ((GSSupervised.init winit binit input_dim num_classes specs).agg_layers.take r)
          ((GSSupervised.init winit binit input_dim num_classes specs).sample
            ids features adj)
        = some lvr
      ∧ lvr.length = specs.length + 1 - r
      ∧ ∀ k, k < lvr.length → (lvr.getD k []).length = ids.length * prodNs specs k := by
    intro r hr
    obtain ⟨lvr, h1, h2, h3⟩ := reduceAll_chain
      ((GSSupervised.init winit binit input_dim num_classes specs).agg_layers.take r)
      ((GSSupervised.init winit binit input_dim num_classes specs).sample
        ids features adj) hchain
    have htake : ((GSSupervised.init winit binit input_dim num_classes
        specs).agg_layers.take r).length = r := by
      rw [List.length_take, hagglen]
      omega
    refine ⟨lvr, h1, by rw [h2, htake, hlv], ?_⟩
    intro k hk
    have hklt : k ≤ specs.length := by
      rw [h2, htake, hlv] at hk
      omega
    rw [h3 k hk, hsizes k hklt]
  refine ⟨hsizes, hratio, hrounds, ?_⟩
  obtain ⟨lvfin, hfin1, hfin2, _⟩ := hrounds specs.length (le_refl _)
  rw [List.take_of_length_le (by rw [hagglen])] at hfin1
  have : lvfin.length = 1 := by omega
  obtain ⟨out, rfl⟩ := List.length_eq_one.mp this
  refine ⟨linearB (GSSupervised.init winit binit input_dim num_classes specs).fc_w
    (GSSupervised.init winit binit input_dim num_classes specs).fc_b
    (normalize out), ?_⟩
  unfold GSSupervised.forward
  rw [hfin1]

/-- Witness for the amended C10 on a concrete one-layer model with a
contract-honouring sampler and the nonempty batch `[0]`. -/
theorem C10_amended_no_shape_mismatch_witness :
    ∃ out, (GSSupervised.init winitEx binitEx 1 1 [specEx 1]).forward
        id [0] featEx adjEx = Except.ok out := by
  refine (C10_amended_no_shape_mismatch winitEx binitEx 1 1 [specEx 1] id
    [0] featEx adjEx (by norm_num) ?_ ?_).2.2.2
  · intro s hs
    simp only [List.mem_singleton] at hs
    rw [hs]
    norm_num [specEx]
  · intro s hs ids2
    simp only [List.mem_singleton] at hs
    rw [hs]
    simp [specEx]

end GraphSage
